import Mathlib

set_option maxRecDepth 10000

/-!
Shallow embedding of the Zubax force-measurement-rig firmware
(`firmware_force_sensor` and `firmware_stepper_drive`): the CRC engine,
the packet framing/parsing protocol (`src/packet.h`), the serial-transport
ring buffer (`src/platform.c`), and the HX711 multi-channel sampler
(`src/platform.c`).  Machine integers are modelled as `Nat` (with explicit
masking where the C types wrap) and `Int` for signed results.
-/

namespace Rig

/-! ### CRC engine

Modelled from the spec: the file `crc.h` (included by `packet.h` and
exercised by `test.c`) is not among the sources.  The spec defines the
algorithm exactly: CRC-16/CCITT-FALSE — polynomial 0x1021, MSB-first,
no input/output reflection, no final XOR, initial value 0xFFFF, residue
0x0000; `crc_update_buffer` is the byte-wise fold over a sequence. -/

/-- Modelled from the spec: initial register value of CRC-16/CCITT-FALSE. -/
def CRC16_CCITT_FALSE_INITIAL_VALUE : Nat := 0xFFFF

/-- Modelled from the spec: the fixed residue checked after streaming the
two big-endian CRC bytes through the accumulator. -/
def CRC16_CCITT_FALSE_RESIDUE : Nat := 0x0000

/-- One shift step of the MSB-first CRC-16 with polynomial 0x1021:
shift left one bit, and XOR in the polynomial when the bit shifted out
was set.  The accumulator is kept in 16 bits. -/
def crc_shift (crc : Nat) : Nat :=
  if crc &&& 0x8000 ≠ 0 then ((crc <<< 1) ^^^ 0x1021) &&& 0xFFFF
  else (crc <<< 1) &&& 0xFFFF

/-- Modelled from the spec: `crc_update(crc, byte)` — fold one byte into
the running CRC-16/CCITT-FALSE value (XOR the byte into the high half,
then eight polynomial shift steps). -/
def crc16_ccitt_false_add_byte (crc byte : Nat) : Nat :=
  crc_shift (crc_shift (crc_shift (crc_shift
    (crc_shift (crc_shift (crc_shift (crc_shift (crc ^^^ (byte <<< 8)))))))))

/-- Modelled from the spec: `crc_update_buffer(crc, bytes)` — the
byte-wise fold of `crc_update` over a byte sequence. -/
def crc16_ccitt_false_add (crc : Nat) (data : List Nat) : Nat :=
  data.foldl crc16_ccitt_false_add_byte crc

theorem crc_shift_lt (crc : Nat) : crc_shift crc < 0x10000 := by
  unfold crc_shift
  split <;> exact Nat.lt_succ_of_le (Nat.and_le_right)

theorem crc16_ccitt_false_add_byte_lt (crc byte : Nat) :
    crc16_ccitt_false_add_byte crc byte < 0x10000 := by
  unfold crc16_ccitt_false_add_byte
  exact crc_shift_lt _

theorem crc16_check_value :
    crc16_ccitt_false_add CRC16_CCITT_FALSE_INITIAL_VALUE
      [0x31, 0x32, 0x33, 0x34, 0x35, 0x36, 0x37, 0x38, 0x39] = 0x29B1 := by
  decide

/-- XORing a value with its own high part (bits 8 and above) leaves its
low byte: `c ^^^ ((c >>> 8) <<< 8) = c &&& 0xFF`. -/
theorem xor_high_low (c : Nat) : c ^^^ ((c >>> 8) <<< 8) = c &&& 0xFF := by
  have h255 : ∀ i : Nat, Nat.testBit 0xFF i = decide (i < 8) := by
    intro i
    rw [show (0xFF : Nat) = 2 ^ 8 - 1 by norm_num, Nat.testBit_two_pow_sub_one]
  apply Nat.eq_of_testBit_eq
  intro i
  rcases Nat.lt_or_ge i 8 with hi | hi
  · simp [Nat.testBit_xor, Nat.testBit_shiftLeft, Nat.testBit_and,
      h255, hi, Nat.not_le.mpr hi]
  · simp [Nat.testBit_xor, Nat.testBit_shiftLeft, Nat.testBit_shiftRight,
      Nat.testBit_and, h255, hi, Nat.not_lt.mpr hi,
      Nat.add_sub_cancel' hi]

theorem crc16_add_byte_eq_shifts (c b : Nat) :
    crc16_ccitt_false_add_byte c b =
      crc_shift (crc_shift (crc_shift (crc_shift (crc_shift (crc_shift
        (crc_shift (crc_shift (c ^^^ (b <<< 8))))))))) := rfl

/-- The residue property restricted to one-byte accumulator values:
running a low byte `L` through the accumulator twice (first folded in as
data starting from `L` itself is impossible; rather this is the algebraic
core) — concretely, `add_byte (add_byte_state) L = 0` for every `L < 256`,
where `add_byte_state = shift8 L`. -/
theorem crc16_low_byte_residue :
    ∀ L : Nat, L < 256 →
      crc16_ccitt_false_add_byte
        (crc_shift (crc_shift (crc_shift (crc_shift (crc_shift (crc_shift
          (crc_shift (crc_shift L)))))))) L = 0 := by
  decide

/-- Streaming any 16-bit accumulator value's own big-endian bytes through
the accumulator, starting from that value, always yields the fixed
residue 0x0000. -/
theorem crc16_residue_all (c : Nat) :
    crc16_ccitt_false_add_byte (crc16_ccitt_false_add_byte c (c >>> 8)) (c &&& 0xFF)
      = CRC16_CCITT_FALSE_RESIDUE := by
  have hinner : crc16_ccitt_false_add_byte c (c >>> 8) =
      crc_shift (crc_shift (crc_shift (crc_shift (crc_shift (crc_shift
        (crc_shift (crc_shift (c &&& 0xFF)))))))) := by
    rw [crc16_add_byte_eq_shifts, xor_high_low]
  have hlt : c &&& 0xFF < 256 := Nat.lt_succ_of_le Nat.and_le_right
  rw [hinner]
  exact crc16_low_byte_residue (c &&& 0xFF) hlt

theorem crc16_ccitt_false_add_lt (data : List Nat) :
    ∀ c : Nat, c < 0x10000 → crc16_ccitt_false_add c data < 0x10000 := by
  induction data with
  | nil => intro c hc; exact hc
  | cons b rest ih =>
    intro c _
    exact ih (crc16_ccitt_false_add_byte c b) (crc16_ccitt_false_add_byte_lt c b)

/-! ### Packet protocol (`firmware_stepper_drive/src/packet.h`)

The parser state struct (named packet_parser in the C source; the Lean
structure carries a state suffix) and the two operations
`packet_send` / `packet_parse`, translated directly from the source.
Machine bytes are `Nat` (callers feed values < 256; `uint8_t` in C).
The 255-byte payload array is a `List Nat` of length 255. -/

def PACKET_MAGIC : Nat := 0xF2EC4CB4

structure packet_parser_state where
  stage : Nat
  payload_size : Nat
  payload_offset : Nat
  payload : List Nat
  crc : Nat
deriving DecidableEq

/-- The zero-initialized parser state (`= {0}` in main.c and test.c). -/
def packet_parser_state.init : packet_parser_state :=
  { stage := 0, payload_size := 0, payload_offset := 0,
    payload := List.replicate 255 0, crc := 0 }

/-- Translation of `packet_parse` (packet.h lines 45–109): one step of the
state machine.  Returns the C function's boolean result together with the
updated state (the C mutates `state` in place). -/
def packet_parse (state : packet_parser_state) (byte : Nat) : Bool × packet_parser_state :=
  if state.stage ≤ 3 then
    -- cases 0..3: magic synchronisation
    if byte = (PACKET_MAGIC >>> (8 * state.stage)) &&& 0xFF then
      (false, { state with stage := state.stage + 1 })
    else
      (false, { state with stage := 0 })
  else if state.stage = 4 then
    -- case 4: payload length byte
    let s := { state with payload_size := byte, payload_offset := 0,
                          crc := CRC16_CCITT_FALSE_INITIAL_VALUE,
                          stage := state.stage + 1 }
    if s.payload_size > 255 then (false, { s with stage := 0 }) else (false, s)
  else if state.stage = 5 ∨ state.stage = 6 ∨ state.stage = 7 then
    -- cases 5..7: reserved bytes, consumed without validation
    (false, { state with stage := state.stage + 1 })
  else if state.stage = 8 then
    -- case 8: payload bytes, then the first CRC byte
    if state.payload_offset < state.payload_size then
      (false, { state with
                  payload := state.payload.set state.payload_offset byte,
                  crc := crc16_ccitt_false_add_byte state.crc byte,
                  payload_offset := state.payload_offset + 1 })
    else
      (false, { state with crc := crc16_ccitt_false_add_byte state.crc byte,
                           stage := state.stage + 1 })
  else
    -- default: the second CRC byte closes the frame
    let c := crc16_ccitt_false_add_byte state.crc byte
    (decide (CRC16_CCITT_FALSE_RESIDUE = c), { state with crc := c, stage := 0 })

/-- Translation of `packet_send` (packet.h lines 29–39).  The injected
`writer` is modelled by returning the emitted byte sequence; the 8-byte
`struct packet_header` serializes on the little-endian AVR target as the
4 magic bytes least-significant first, the length byte, and 3 zero
reserved bytes (the byte-level layout is pinned down by the expected
strings in `test.c`).  `data` is the `size`-byte payload the C function
reads through its pointer argument. -/
def packet_send (size : Nat) (data : List Nat) : List Nat :=
  [PACKET_MAGIC &&& 0xFF, (PACKET_MAGIC >>> 8) &&& 0xFF,
   (PACKET_MAGIC >>> 16) &&& 0xFF, (PACKET_MAGIC >>> 24) &&& 0xFF,
   size, 0, 0, 0] ++
  data ++
  (let crc := crc16_ccitt_false_add CRC16_CCITT_FALSE_INITIAL_VALUE data
   [(crc >>> 8) &&& 0xFF, crc &&& 0xFF])

/-- Feeding a byte sequence one byte at a time through `packet_parse`:
the list of boolean results and the final parser state. -/
def parse_stream (s : packet_parser_state) : List Nat → List Bool × packet_parser_state
  | [] => ([], s)
  | b :: rest =>
    let step := packet_parse s b
    let tail := parse_stream step.2 rest
    (step.1 :: tail.1, tail.2)

/-- Index into the 255-byte payload array written by one `packet_parse`
call, if the call executes the store `state->payload[state->payload_offset] = byte`
(packet.h line 89); `none` when no store is executed. -/
def packet_parse_store (state : packet_parser_state) (_byte : Nat) : Option Nat :=
  if state.stage = 8 ∧ state.payload_offset < state.payload_size then
    some state.payload_offset
  else
    none

/-- Indices of all payload-array stores performed while feeding a byte
sequence through `packet_parse`. -/
def parse_stream_stores (s : packet_parser_state) : List Nat → List Nat
  | [] => []
  | b :: rest =>
    (packet_parse_store s b).toList ++ parse_stream_stores (packet_parse s b).2 rest

/-- One `packet_parse` call either keeps `payload_size` or sets it to the
incoming byte (only the length stage, case 4, writes the field). -/
theorem packet_parse_payload_size (s : packet_parser_state) (b : Nat) :
    (packet_parse s b).2.payload_size = s.payload_size ∨
      (packet_parse s b).2.payload_size = b := by
  unfold packet_parse
  dsimp only
  split_ifs <;> simp

theorem parse_stream_stores_lt (bytes : List Nat) :
    ∀ s : packet_parser_state, s.payload_size ≤ 255 → (∀ b ∈ bytes, b < 256) →
      ∀ i ∈ parse_stream_stores s bytes, i < 255 := by
  induction bytes with
  | nil => intro s _ _ i hi; simp [parse_stream_stores] at hi
  | cons b rest ih =>
    intro s hsize hb i hi
    rw [parse_stream_stores, List.mem_append] at hi
    rcases hi with hi | hi
    · unfold packet_parse_store at hi
      split at hi
      · rename_i hcond
        simp at hi
        omega
      · simp at hi
    · have hb' : b < 256 := hb b (List.mem_cons_self b rest)
      have hsize' : (packet_parse s b).2.payload_size ≤ 255 := by
        rcases packet_parse_payload_size s b with h | h <;> omega
      exact ih (packet_parse s b).2 hsize'
        (fun x hx => hb x (List.mem_cons_of_mem b hx)) i hi

/-- C6: for every byte stream fed to `packet_parse` from the initial
state, every store into the fixed 255-byte payload buffer uses an index
strictly below 255 (stores happen only while `payload_offset < payload_size`,
and `payload_size` never exceeds 255 for bytes below 256); moreover if
the length byte received at the length stage did exceed the capacity 255,
the parser would reset to stage 0 within that same call, so no
out-of-bounds write is reachable. -/
theorem payload_store_in_bounds (bytes : List Nat) (hb : ∀ b ∈ bytes, b < 256) :
    (∀ i ∈ parse_stream_stores packet_parser_state.init bytes, i < 255) ∧
    (∀ s : packet_parser_state, ∀ b : Nat, s.stage = 4 → 255 < b →
      (packet_parse s b).2.stage = 0) := by
  constructor
  · exact parse_stream_stores_lt bytes packet_parser_state.init (by simp [packet_parser_state.init]) hb
  · intro s b hs hbig
    unfold packet_parse
    rw [if_neg (by omega), if_pos hs, if_pos (by simpa using hbig)]

/-- C6 witness: a concrete full frame with a 2-byte payload performs
exactly the in-bounds stores at indices 0 and 1, and a parser sitting at
the length stage resets on an oversize (hypothetical, > 255) length byte. -/
theorem payload_store_in_bounds_witness :
    (∀ i ∈ parse_stream_stores packet_parser_state.init
        [0xB4, 0x4C, 0xEC, 0xF2, 2, 0, 0, 0, 7, 9, 0, 0], i < 255) ∧
    (∀ s : packet_parser_state, ∀ b : Nat, s.stage = 4 → 255 < b →
      (packet_parse s b).2.stage = 0) :=
  payload_store_in_bounds [0xB4, 0x4C, 0xEC, 0xF2, 2, 0, 0, 0, 7, 9, 0, 0] (by decide)

/-- C7: `packet_send` with a zero-length payload emits exactly the
10 bytes of header-plus-CRC: the 4 magic bytes least-significant first,
a zero length byte, 3 zero reserved bytes, no payload bytes, and the CRC
bytes 0xFF 0xFF — the CRC of the empty message, which is the unchanged
initial value 0xFFFF. -/
theorem packet_send_empty :
    packet_send 0 [] = [0xB4, 0x4C, 0xEC, 0xF2, 0, 0, 0, 0, 0xFF, 0xFF] ∧
    (packet_send 0 []).length = 10 ∧
    crc16_ccitt_false_add CRC16_CCITT_FALSE_INITIAL_VALUE [] =
      CRC16_CCITT_FALSE_INITIAL_VALUE := by
  refine ⟨by decide, by decide, rfl⟩

/-- C8: the CRC fold over the ASCII bytes of the string of digits 1–9
from the initial value 0xFFFF equals the standard check value 0x29B1;
folding that message followed by its own big-endian CRC bytes 0x29 0xB1
drives the accumulator to the residue 0x0000; and folding zero bytes
returns the accumulator unchanged. -/
theorem crc16_test_vectors :
    crc16_ccitt_false_add CRC16_CCITT_FALSE_INITIAL_VALUE
      [0x31, 0x32, 0x33, 0x34, 0x35, 0x36, 0x37, 0x38, 0x39] = 0x29B1 ∧
    crc16_ccitt_false_add CRC16_CCITT_FALSE_INITIAL_VALUE
      [0x31, 0x32, 0x33, 0x34, 0x35, 0x36, 0x37, 0x38, 0x39, 0x29, 0xB1] =
      CRC16_CCITT_FALSE_RESIDUE ∧
    ∀ c : Nat, crc16_ccitt_false_add c [] = c := by
  refine ⟨by decide, by decide, fun c => rfl⟩

/-- C5: in parser stages 0–3 the result is false and the stage advances
by one exactly when the byte equals the stage-indexed byte
(least-significant first) of the magic constant 0xF2EC4CB4, resetting to
stage 0 otherwise; and the first magic byte differs from the magic bytes
of stages 1–3, so a mismatching byte that could start a new magic
sequence still resets the stage to 0. -/
theorem magic_sync_stage (s : packet_parser_state) (b : Nat) (hs : s.stage ≤ 3) :
    (packet_parse s b).1 = false ∧
    (packet_parse s b).2 =
      (if b = (PACKET_MAGIC >>> (8 * s.stage)) &&& 0xFF
       then { s with stage := s.stage + 1 }
       else { s with stage := 0 }) ∧
    (∀ t : Nat, 1 ≤ t → t ≤ 3 →
      (PACKET_MAGIC >>> (8 * t)) &&& 0xFF ≠ PACKET_MAGIC &&& 0xFF) := by
  refine ⟨?_, ?_, by decide⟩ <;>
    · unfold packet_parse
      rw [if_pos hs]
      split <;> simp

/-- C5 witness: a parser one stage into the magic (stage 1) fed the first
magic byte 0xB4 again resets fully to stage 0. -/
theorem magic_sync_stage_witness :
    (packet_parse ⟨1, 0, 0, List.replicate 255 0, 0⟩ 0xB4).2.stage = 0 := by
  have h := magic_sync_stage ⟨1, 0, 0, List.replicate 255 0, 0⟩ 0xB4 (by decide)
  rw [h.2.1]
  decide

/-- C2: once the payload bytes of a frame are complete (stage 8 with
`payload_offset` no longer below `payload_size`), exactly the next two
bytes are consumed as CRC bytes: the first is folded into the running
`crc` and moves the automaton to stage 9 (returning false, touching
neither payload nor offset); the second is folded into `crc`, the
automaton returns to stage 0 regardless of match or mismatch, and the
call returns true if and only if the accumulator equals the fixed
residue 0x0000. -/
theorem crc_stage_two_bytes (s : packet_parser_state) (b1 b2 : Nat)
    (h8 : s.stage = 8) (hdone : ¬ s.payload_offset < s.payload_size) :
    (packet_parse s b1).1 = false ∧
    (packet_parse s b1).2.crc = crc16_ccitt_false_add_byte s.crc b1 ∧
    (packet_parse s b1).2.stage = 9 ∧
    (packet_parse s b1).2.payload = s.payload ∧
    (packet_parse s b1).2.payload_offset = s.payload_offset ∧
    (packet_parse s b1).2.payload_size = s.payload_size ∧
    (packet_parse (packet_parse s b1).2 b2).2.crc =
      crc16_ccitt_false_add_byte (crc16_ccitt_false_add_byte s.crc b1) b2 ∧
    (packet_parse (packet_parse s b1).2 b2).2.stage = 0 ∧
    ((packet_parse (packet_parse s b1).2 b2).1 = true ↔
      (packet_parse (packet_parse s b1).2 b2).2.crc = CRC16_CCITT_FALSE_RESIDUE) := by
  have e1 : packet_parse s b1 =
      (false, { s with crc := crc16_ccitt_false_add_byte s.crc b1,
                       stage := 9 }) := by
    unfold packet_parse
    rw [if_neg (by omega), if_neg (by omega), if_neg (by omega),
        if_pos h8, if_neg hdone, h8]
  have e2 : packet_parse (packet_parse s b1).2 b2 =
      (decide (CRC16_CCITT_FALSE_RESIDUE =
          crc16_ccitt_false_add_byte (crc16_ccitt_false_add_byte s.crc b1) b2),
        { s with crc := crc16_ccitt_false_add_byte
                    (crc16_ccitt_false_add_byte s.crc b1) b2,
                 stage := 0 }) := by
    rw [e1]
    unfold packet_parse
    norm_num
  rw [e2, e1]
  simp
  constructor
  · intro h; exact h.symm
  · intro h; exact h.symm

/-- C2 witness: the empty-payload frame, after its zero-length payload is
complete, consumes exactly the two CRC bytes 0xFF 0xFF, accepts on the
second one, and returns to stage 0. -/
theorem crc_stage_two_bytes_witness :
    (packet_parse (packet_parse ⟨8, 0, 0, List.replicate 255 0, 0xFFFF⟩ 0xFF).2 0xFF).1
      = true ∧
    (packet_parse (packet_parse ⟨8, 0, 0, List.replicate 255 0, 0xFFFF⟩ 0xFF).2 0xFF).2.stage
      = 0 := by
  have h := crc_stage_two_bytes ⟨8, 0, 0, List.replicate 255 0, 0xFFFF⟩ 0xFF 0xFF
    rfl (by decide)
  refine ⟨h.2.2.2.2.2.2.2.2.mpr ?_, h.2.2.2.2.2.2.2.1⟩
  rw [h.2.2.2.2.2.2.1]
  decide

/-! ### Serial-transport ring buffer (`firmware_force_sensor/src/platform.c`)

The `struct fifo` and the operations `fifo_push`, `fifo_pop`, `fifo_len`,
translated from the source.  The `SREG`/`cli` critical sections make each
operation atomic; here each operation is a pure function on the buffer
state.  The C field `in` is a Lean keyword and is spelled `inp`. -/

structure fifo where
  pbuf : List Nat
  bufsize : Nat
  inp : Nat
  out : Nat
  len : Nat
deriving DecidableEq

/-- Translation of `fifo_push` (platform.c lines 31–53): store at the
write index, advance and wrap it; if the buffer is full advance and wrap
the read index (overwriting the oldest byte), otherwise grow `len`. -/
def fifo_push (f : fifo) (data : Nat) : fifo :=
  let pbuf := f.pbuf.set f.inp data
  let inp0 := f.inp + 1
  let inp := if inp0 ≥ f.bufsize then 0 else inp0
  if f.len ≥ f.bufsize then
    let out0 := f.out + 1
    let out := if out0 ≥ f.bufsize then 0 else out0
    { f with pbuf := pbuf, inp := inp, out := out }
  else
    { f with pbuf := pbuf, inp := inp, len := f.len + 1 }

/-- Translation of `fifo_pop` (platform.c lines 55–73): `-1` when empty,
otherwise the byte at the read index, which advances and wraps, with
`len` decremented. -/
def fifo_pop (f : fifo) : Int × fifo :=
  if f.len = 0 then
    (-1, f)
  else
    let retval := f.pbuf.getD f.out 0
    let out0 := f.out + 1
    let out := if out0 ≥ f.bufsize then 0 else out0
    ((retval : Int), { f with len := f.len - 1, out := out })

/-- Translation of `fifo_len` (platform.c lines 75–82). -/
def fifo_len (f : fifo) : Nat := f.len

/-- Translation of `platform_serial_read` (platform.c lines 243–246):
pop from the RX fifo. -/
def platform_serial_read (g_fifo_rx : fifo) : Int × fifo :=
  fifo_pop g_fifo_rx

/-- Structural invariant the firmware's fifos maintain: the backing array
has exactly `bufsize` cells, the indices are in range, `len` never
exceeds the capacity, and the write index sits `len` slots past the read
index (cyclically). -/
def fifo.wf (f : fifo) : Prop :=
  f.pbuf.length = f.bufsize ∧ 0 < f.bufsize ∧ f.out < f.bufsize ∧
    f.len ≤ f.bufsize ∧ f.inp = (f.out + f.len) % f.bufsize

instance (f : fifo) : Decidable f.wf := by
  unfold fifo.wf; infer_instance

/-- Abstraction: the queue of unread bytes, oldest first. -/
def fifo.contents (f : fifo) : List Nat :=
  (List.range f.len).map (fun i => f.pbuf.getD ((f.out + i) % f.bufsize) 0)

/-- An initially empty fifo of the given capacity (the firmware's
`g_fifo_tx` and `g_fifo_rx` are this with capacities 200 and 500). -/
def fifo_empty (cap : Nat) : fifo :=
  { pbuf := List.replicate cap 0, bufsize := cap, inp := 0, out := 0, len := 0 }

def g_fifo_tx : fifo := fifo_empty 200
def g_fifo_rx : fifo := fifo_empty 500

theorem fifo_contents_length (f : fifo) : f.contents.length = f.len := by
  simp [fifo.contents]

theorem mod_add_ne {n a i j : Nat} (hi : i < n) (hj : j < n) (hne : i ≠ j) :
    (a + i) % n ≠ (a + j) % n := by
  intro h
  have : i % n = j % n := Nat.ModEq.add_left_cancel' a h
  rw [Nat.mod_eq_of_lt hi, Nat.mod_eq_of_lt hj] at this
  exact hne this

theorem fifo_push_bufsize (f : fifo) (d : Nat) :
    (fifo_push f d).bufsize = f.bufsize := by
  unfold fifo_push
  dsimp only
  split <;> rfl

theorem fifo_push_not_full (f : fifo) (d : Nat) (hwf : f.wf)
    (hnf : f.len < f.bufsize) :
    (fifo_push f d).wf ∧ (fifo_push f d).contents = f.contents ++ [d] := by
  obtain ⟨hlen, hpos, hout, hle, hinp⟩ := hwf
  have hinplt : f.inp < f.bufsize := by rw [hinp]; exact Nat.mod_lt _ hpos
  have hstep : fifo_push f d =
      { f with pbuf := f.pbuf.set f.inp d,
               inp := (f.inp + 1) % f.bufsize,
               len := f.len + 1 } := by
    unfold fifo_push
    rw [if_neg (by omega)]
    have : (if f.inp + 1 ≥ f.bufsize then 0 else f.inp + 1) =
        (f.inp + 1) % f.bufsize := by
      rcases Nat.lt_or_ge (f.inp + 1) f.bufsize with h | h
      · rw [if_neg (by omega), Nat.mod_eq_of_lt h]
      · have : f.inp + 1 = f.bufsize := by omega
        rw [this]
        simp
    rw [this]
  rw [hstep]
  refine ⟨⟨by simpa using hlen, hpos, hout,
      by show f.len + 1 ≤ f.bufsize; omega, ?_⟩, ?_⟩
  · show (f.inp + 1) % f.bufsize = (f.out + (f.len + 1)) % f.bufsize
    conv_lhs => rw [hinp]
    rw [Nat.mod_add_mod]
    congr 1
  · show (List.range (f.len + 1)).map
        (fun i => (f.pbuf.set f.inp d).getD ((f.out + i) % f.bufsize) 0) =
      f.contents ++ [d]
    rw [List.range_succ, List.map_append]
    congr 1
    · apply List.map_congr_left
      intro i hi
      rw [List.mem_range] at hi
      have hne : (f.out + i) % f.bufsize ≠ f.inp := by
        rw [hinp]
        exact mod_add_ne (by omega) (by omega) (by omega)
      simp only [List.getD_eq_getElem?_getD]
      rw [List.getElem?_set_ne (Ne.symm hne)]
    · have hpos' : f.inp < f.pbuf.length := by omega
      simp only [List.getD_eq_getElem?_getD, List.map_cons, List.map_nil]
      rw [← hinp, List.getElem?_set_self hpos']
      rfl

theorem fifo_push_full (f : fifo) (d : Nat) (hwf : f.wf)
    (hfull : f.len = f.bufsize) :
    (fifo_push f d).wf ∧
      (fifo_push f d).contents = f.contents.tail ++ [d] := by
  obtain ⟨hlen, hpos, hout, hle, hinp⟩ := hwf
  have hinpeq : f.inp = f.out := by
    rw [hinp, hfull, Nat.add_mod_right, Nat.mod_eq_of_lt hout]
  have hwrap : (if f.out + 1 ≥ f.bufsize then 0 else f.out + 1) =
      (f.out + 1) % f.bufsize := by
    rcases Nat.lt_or_ge (f.out + 1) f.bufsize with h | h
    · rw [if_neg (by omega), Nat.mod_eq_of_lt h]
    · have : f.out + 1 = f.bufsize := by omega
      rw [this]
      simp
  have hstep : fifo_push f d =
      { f with pbuf := f.pbuf.set f.out d,
               inp := (f.out + 1) % f.bufsize,
               out := (f.out + 1) % f.bufsize } := by
    unfold fifo_push
    dsimp only
    rw [if_pos (by omega), hinpeq]
    simp only [hwrap]
  rw [hstep]
  have hout' : (f.out + 1) % f.bufsize < f.bufsize := Nat.mod_lt _ hpos
  have htail : f.contents.tail = (List.range (f.len - 1)).map
      (fun i => f.pbuf.getD ((f.out + (i + 1)) % f.bufsize) 0) := by
    unfold fifo.contents
    have hsucc : f.len = (f.len - 1) + 1 := by omega
    rw [hsucc, List.range_succ_eq_map, List.map_cons, List.map_map, List.tail_cons]
    rfl
  refine ⟨⟨by simpa using hlen, hpos, hout',
      by show f.len ≤ f.bufsize; omega, ?_⟩, ?_⟩
  · show (f.out + 1) % f.bufsize = ((f.out + 1) % f.bufsize + f.len) % f.bufsize
    rw [Nat.mod_add_mod, hfull, Nat.add_mod_right]
  · show (List.range f.len).map
        (fun i => (f.pbuf.set f.out d).getD
          (((f.out + 1) % f.bufsize + i) % f.bufsize) 0) =
      f.contents.tail ++ [d]
    have hsucc : f.len = (f.len - 1) + 1 := by omega
    rw [htail, hsucc, List.range_succ, List.map_append]
    congr 1
    · apply List.map_congr_left
      intro i hi
      rw [List.mem_range] at hi
      have hmod : ((f.out + 1) % f.bufsize + i) % f.bufsize =
          (f.out + (i + 1)) % f.bufsize := by
        rw [Nat.mod_add_mod, Nat.add_assoc, Nat.add_comm 1 i]
      rw [hmod]
      have hne : (f.out + (i + 1)) % f.bufsize ≠ f.out := by
        have h0 : f.out = (f.out + 0) % f.bufsize := by
          rw [Nat.add_zero, Nat.mod_eq_of_lt hout]
        conv_rhs => rw [h0]
        exact mod_add_ne (by omega) (by omega) (by omega)
      simp only [List.getD_eq_getElem?_getD]
      rw [List.getElem?_set_ne (Ne.symm hne)]
    · have hmod : ((f.out + 1) % f.bufsize + (f.len - 1)) % f.bufsize = f.out := by
        rw [Nat.mod_add_mod, Nat.add_assoc]
        have : 1 + (f.len - 1) = f.bufsize := by omega
        rw [this, Nat.add_mod_right, Nat.mod_eq_of_lt hout]
      simp only [List.map_cons, List.map_nil, hmod, List.getD_eq_getElem?_getD]
      rw [List.getElem?_set_self (by omega)]
      rfl

theorem fifo_pop_nonempty (f : fifo) (hwf : f.wf) (hne : 0 < f.len) :
    fifo_pop f = (((f.pbuf.getD f.out 0 : Nat) : Int),
      { f with len := f.len - 1, out := (f.out + 1) % f.bufsize }) ∧
    (fifo_pop f).2.wf ∧
    f.contents = f.pbuf.getD f.out 0 :: (fifo_pop f).2.contents := by
  obtain ⟨hlen, hpos, hout, hle, hinp⟩ := hwf
  have hwrap : (if f.out + 1 ≥ f.bufsize then 0 else f.out + 1) =
      (f.out + 1) % f.bufsize := by
    rcases Nat.lt_or_ge (f.out + 1) f.bufsize with h | h
    · rw [if_neg (by omega), Nat.mod_eq_of_lt h]
    · have : f.out + 1 = f.bufsize := by omega
      rw [this]
      simp
  have hstep : fifo_pop f =
      (((f.pbuf.getD f.out 0 : Nat) : Int),
        { f with len := f.len - 1, out := (f.out + 1) % f.bufsize }) := by
    unfold fifo_pop
    dsimp only
    rw [if_neg (by omega)]
    simp only [hwrap]
  have hout' : (f.out + 1) % f.bufsize < f.bufsize := Nat.mod_lt _ hpos
  refine ⟨hstep, ?_, ?_⟩
  · rw [hstep]
    refine ⟨by simpa using hlen, hpos, hout',
      by show f.len - 1 ≤ f.bufsize; omega, ?_⟩
    show f.inp = ((f.out + 1) % f.bufsize + (f.len - 1)) % f.bufsize
    rw [hinp, Nat.mod_add_mod]
    congr 1
    omega
  · rw [hstep]
    show f.contents = f.pbuf.getD f.out 0 :: (List.range (f.len - 1)).map
        (fun i => f.pbuf.getD (((f.out + 1) % f.bufsize + i) % f.bufsize) 0)
    unfold fifo.contents
    have hsucc : f.len = (f.len - 1) + 1 := by omega
    rw [hsucc, List.range_succ_eq_map, List.map_cons, List.map_map]
    congr 1
    · congr 1
      rw [Nat.add_zero, Nat.mod_eq_of_lt hout]
    · apply List.map_congr_left
      intro i _
      show f.pbuf.getD ((f.out + (i + 1)) % f.bufsize) 0 = _
      congr 1
      rw [Nat.mod_add_mod, Nat.add_assoc, Nat.add_comm 1 i]

/-- Pushing a whole byte sequence, oldest first. -/
def fifo_push_all (f : fifo) (xs : List Nat) : fifo := xs.foldl fifo_push f

/-- Popping `n` times, collecting the returned values. -/
def fifo_pop_all (f : fifo) : Nat → List Int × fifo
  | 0 => ([], f)
  | n + 1 =>
    let step := fifo_pop f
    let rest := fifo_pop_all step.2 n
    (step.1 :: rest.1, rest.2)

theorem fifo_push_all_contents (xs : List Nat) :
    ∀ f : fifo, f.wf →
      (fifo_push_all f xs).wf ∧
      (fifo_push_all f xs).contents =
        (f.contents ++ xs).drop (f.len + xs.length - f.bufsize) ∧
      (fifo_push_all f xs).bufsize = f.bufsize := by
  induction xs with
  | nil =>
    intro f hwf
    refine ⟨hwf, ?_, rfl⟩
    simp only [fifo_push_all, List.foldl_nil, List.append_nil, List.length_nil,
      Nat.add_zero]
    rw [Nat.sub_eq_zero_of_le hwf.2.2.2.1, List.drop_zero]
  | cons x xs ih =>
    intro f hwf
    have hlen : f.len ≤ f.bufsize := hwf.2.2.2.1
    have hstep : fifo_push_all f (x :: xs) = fifo_push_all (fifo_push f x) xs := rfl
    rcases Nat.lt_or_ge f.len f.bufsize with hnf | hge
    · obtain ⟨hwf', hcont'⟩ := fifo_push_not_full f x hwf hnf
      obtain ⟨hw, hc, hb⟩ := ih (fifo_push f x) hwf'
      refine ⟨by rwa [hstep], ?_, by rw [hstep, hb, fifo_push_bufsize]⟩
      rw [hstep, hc, hcont', fifo_push_bufsize]
      have hlen' : (fifo_push f x).len = f.len + 1 := by
        have h1 := fifo_contents_length (fifo_push f x)
        rw [hcont'] at h1
        simp [fifo_contents_length] at h1
        omega
      rw [hlen', List.append_assoc]
      congr 1
      simp
      omega
    · have hfull : f.len = f.bufsize := by omega
      obtain ⟨hwf', hcont'⟩ := fifo_push_full f x hwf hfull
      obtain ⟨hw, hc, hb⟩ := ih (fifo_push f x) hwf'
      refine ⟨by rwa [hstep], ?_, by rw [hstep, hb, fifo_push_bufsize]⟩
      rw [hstep, hc, hcont', fifo_push_bufsize]
      have hpos : 0 < f.bufsize := hwf.2.1
      have hclen : f.contents.length = f.bufsize := by
        rw [fifo_contents_length]; omega
      have hlen' : (fifo_push f x).len = f.bufsize := by
        have h1 := fifo_contents_length (fifo_push f x)
        rw [hcont'] at h1
        simp [List.length_tail, hclen] at h1
        omega
      rw [hlen']
      obtain ⟨v, rest, hvr⟩ : ∃ v rest, f.contents = v :: rest := by
        cases hcl : f.contents with
        | nil => rw [hcl] at hclen; simp at hclen; omega
        | cons v rest => exact ⟨v, rest, rfl⟩
      rw [hvr]
      show (rest ++ [x] ++ xs).drop (f.bufsize + xs.length - f.bufsize) =
        (v :: rest ++ x :: xs).drop (f.len + (xs.length + 1) - f.bufsize)
      have h1 : f.bufsize + xs.length - f.bufsize = xs.length := by omega
      have h2 : f.len + (xs.length + 1) - f.bufsize = xs.length + 1 := by omega
      rw [h1, h2, List.cons_append, List.drop_succ_cons, List.append_assoc]
      rfl

theorem fifo_pop_all_values (n : Nat) :
    ∀ f : fifo, f.wf → n ≤ f.len →
      (fifo_pop_all f n).1 = (f.contents.take n).map Int.ofNat := by
  induction n with
  | zero => intro f _ _; simp [fifo_pop_all]
  | succ n ih =>
    intro f hwf hn
    obtain ⟨hpop, hwf', hcont⟩ := fifo_pop_nonempty f hwf (by omega)
    have hlen' : (fifo_pop f).2.len = f.len - 1 := by rw [hpop]
    show ((fifo_pop f).1 :: (fifo_pop_all (fifo_pop f).2 n).1) = _
    rw [ih (fifo_pop f).2 hwf' (by omega), hcont]
    rw [List.take_succ_cons, List.map_cons]
    congr 1
    rw [hpop]
    rfl

/-- C3: from an initially empty fifo of any positive capacity, pushing N
bytes and popping N times returns exactly the pushed bytes in order when
N is at most the capacity; when at least capacity-many bytes are pushed,
exactly the most recent `capacity` bytes remain and are popped in order;
and each push into a full fifo overwrites the oldest unread byte. -/
theorem fifo_push_pop_order (cap : Nat) (hcap : 0 < cap) (xs : List Nat) :
    (xs.length ≤ cap →
      (fifo_pop_all (fifo_push_all (fifo_empty cap) xs) xs.length).1 =
        xs.map Int.ofNat) ∧
    (cap ≤ xs.length →
      (fifo_push_all (fifo_empty cap) xs).contents = xs.drop (xs.length - cap) ∧
      (fifo_pop_all (fifo_push_all (fifo_empty cap) xs) cap).1 =
        (xs.drop (xs.length - cap)).map Int.ofNat) ∧
    (∀ f : fifo, f.wf → f.len = f.bufsize → ∀ d : Nat,
      (fifo_push f d).contents = f.contents.tail ++ [d]) := by
  have hewf : (fifo_empty cap).wf := by
    refine ⟨by simp [fifo_empty], hcap, hcap, by simp [fifo_empty], ?_⟩
    simp [fifo_empty]
  have hecont : (fifo_empty cap).contents = [] := rfl
  obtain ⟨hwf, hcont, hbuf⟩ := fifo_push_all_contents xs (fifo_empty cap) hewf
  replace hcont : (fifo_push_all (fifo_empty cap) xs).contents =
      xs.drop (0 + xs.length - cap) := hcont
  refine ⟨?_, ?_, ?_⟩
  · intro hle
    have h0 : (0 : Nat) + xs.length - cap = 0 := by omega
    rw [h0, List.drop_zero] at hcont
    have hlenf : (fifo_push_all (fifo_empty cap) xs).len = xs.length := by
      have := fifo_contents_length (fifo_push_all (fifo_empty cap) xs)
      rw [hcont] at this
      omega
    rw [fifo_pop_all_values xs.length _ hwf (by omega), hcont,
        List.take_of_length_le (by omega)]
  · intro hge
    have h0 : (0 : Nat) + xs.length - cap = xs.length - cap := by omega
    rw [h0] at hcont
    refine ⟨hcont, ?_⟩
    have hdlen : (xs.drop (xs.length - cap)).length = cap := by
      rw [List.length_drop]
      omega
    have hlenf : (fifo_push_all (fifo_empty cap) xs).len = cap := by
      have := fifo_contents_length (fifo_push_all (fifo_empty cap) xs)
      rw [hcont, hdlen] at this
      omega
    rw [fifo_pop_all_values cap _ hwf (by omega), hcont,
        List.take_of_length_le (by omega)]
  · intro f hwf hfull d
    exact (fifo_push_full f d hwf hfull).2

/-- C3 witness: capacity 2, pushes [5, 6, 7]: the oldest byte 5 is
overwritten and the two pops return 6 then 7; with pushes [8, 9] the two
pops return 8 then 9. -/
theorem fifo_push_pop_order_witness :
    (fifo_pop_all (fifo_push_all (fifo_empty 2) [8, 9]) 2).1 = [8, 9] ∧
    (fifo_pop_all (fifo_push_all (fifo_empty 2) [5, 6, 7]) 2).1 = [6, 7] := by
  constructor
  · have h := fifo_push_pop_order 2 (by decide) [8, 9]
    exact (h.1 (by decide)).trans (by decide)
  · have h := fifo_push_pop_order 2 (by decide) [5, 6, 7]
    exact ((h.2.1 (by decide)).2).trans (by decide)

/-- C9: `fifo_pop` (and therefore `platform_serial_read`, which is a pop
from the RX fifo) returns −1 exactly when the buffer length is 0, in
which case the whole fifo state is unchanged; otherwise it returns the
oldest stored byte, a value in [0, 255], and decrements the length by
one. -/
theorem fifo_pop_empty_behaviour (f : fifo) (hwf : f.wf)
    (hbytes : ∀ x ∈ f.pbuf, x < 256) :
    ((fifo_pop f).1 = -1 ↔ f.len = 0) ∧
    (f.len = 0 → (fifo_pop f).2 = f) ∧
    (0 < f.len →
      0 ≤ (fifo_pop f).1 ∧ (fifo_pop f).1 ≤ 255 ∧
      (fifo_pop f).1 = ((f.contents.getD 0 0 : Nat) : Int) ∧
      (fifo_pop f).2.len = f.len - 1) ∧
    platform_serial_read f = fifo_pop f := by
  rcases Nat.eq_zero_or_pos f.len with hz | hpos
  · have he : fifo_pop f = (-1, f) := by
      unfold fifo_pop
      rw [if_pos hz]
    refine ⟨by rw [he]; exact ⟨fun _ => hz, fun _ => rfl⟩,
      fun _ => by rw [he], fun h => absurd hz (by omega), rfl⟩
  · obtain ⟨hpop, hwf', hcont⟩ := fifo_pop_nonempty f hwf hpos
    have hout : f.out < f.pbuf.length := by
      have h1 := hwf.1
      have h2 := hwf.2.2.1
      omega
    have hval : f.pbuf.getD f.out 0 < 256 := by
      have hm : f.pbuf.getD f.out 0 ∈ f.pbuf := by
        simp only [List.getD_eq_getElem?_getD, List.getElem?_eq_getElem hout,
          Option.getD_some]
        exact List.getElem_mem hout
      exact hbytes _ hm
    have hv1 : (fifo_pop f).1 = ((f.pbuf.getD f.out 0 : Nat) : Int) := by
      rw [hpop]
    refine ⟨?_, fun h => absurd h (by omega), fun _ => ⟨?_, ?_, ?_, ?_⟩, rfl⟩
    · rw [hv1]
      constructor
      · intro h
        exfalso
        omega
      · intro h
        exact absurd h (by omega)
    · rw [hv1]; positivity
    · rw [hv1]
      exact_mod_cast Nat.le_of_lt_succ (by omega)
    · rw [hv1, hcont]
      rfl
    · rw [hpop]

/-- C9 witness: a well-formed one-byte fifo pops 7 and becomes empty. -/
theorem fifo_pop_empty_behaviour_witness :
    0 ≤ (fifo_pop ⟨[7, 0, 0], 3, 1, 0, 1⟩).1 ∧
    (fifo_pop ⟨[7, 0, 0], 3, 1, 0, 1⟩).2.len = 0 := by
  have h := fifo_pop_empty_behaviour ⟨[7, 0, 0], 3, 1, 0, 1⟩ (by decide) (by decide)
  have h3 := h.2.2.1 (by decide)
  exact ⟨h3.1, h3.2.2.2.trans (by decide)⟩

/-! ### HX711 multi-channel sampler (`firmware_force_sensor/src/platform.c`)

Translation of `read_hx711_gain128` (lines 138–183).  GPIO timing (clock
pulses, delays, the readiness wait and the 25th gain-select pulse) is not
value-relevant; what the function computes from the sampled data-line
levels is.  `pins_data i j` is the level read on channel `j`'s data line
during clock pulse `i` (0 ≤ i < 24, MSB first).  During the 24-pulse
accumulation the `int32_t` results stay in [0, 2^24), so they are
accumulated as `Nat`; the final `results[i] <<= 8` wraps like the
two's-complement `int32_t` shift on the AVR gcc target. -/

/-- Reinterpretation of the low 32 bits of a natural number as a
two's-complement `int32_t` value. -/
def toInt32 (n : Nat) : Int :=
  if n % 2 ^ 32 < 2 ^ 31 then ((n % 2 ^ 32 : Nat) : Int)
  else ((n % 2 ^ 32 : Nat) : Int) - 2 ^ 32

/-- Translation of `read_hx711_gain128`: 24 clock pulses, each shifting
every channel's accumulator left one bit and ORing in that channel's
data-line level, then the left shift by 8. -/
def read_hx711_gain128 (data_pin_count : Nat) (pins_data : Nat → Nat → Bool) :
    List Int :=
  let results := (List.range 24).foldl
    (fun results i => (List.range data_pin_count).map
      (fun j => 2 * results.getD j 0 + (if pins_data i j then 1 else 0)))
    (List.replicate data_pin_count 0)
  results.map (fun r => toInt32 (r <<< 8))

/-- The value a channel accumulates from its 24 scripted levels,
MSB first. -/
def hx711_bits_value (bits : List Bool) : Nat :=
  bits.foldl (fun acc b => 2 * acc + (if b then 1 else 0)) 0

theorem hx711_fold_channels (pins : Nat → Nat → Bool) (count : Nat) (ps : List Nat) :
    ∀ g : Nat → Nat,
      ps.foldl (fun results i => (List.range count).map
          (fun j => 2 * results.getD j 0 + (if pins i j then 1 else 0)))
        ((List.range count).map g) =
      (List.range count).map
        (fun j => ps.foldl (fun acc i => 2 * acc + (if pins i j then 1 else 0)) (g j)) := by
  induction ps with
  | nil => intro g; rfl
  | cons p ps ih =>
    intro g
    rw [List.foldl_cons]
    have hstep : (List.range count).map
        (fun j => 2 * (((List.range count).map g).getD j 0) + (if pins p j then 1 else 0)) =
        (List.range count).map (fun j => 2 * g j + (if pins p j then 1 else 0)) := by
      apply List.map_congr_left
      intro j hj
      rw [List.mem_range] at hj
      have : ((List.range count).map g).getD j 0 = g j := by
        simp only [List.getD_eq_getElem?_getD, List.getElem?_map,
          List.getElem?_range hj, Option.map_some', Option.getD_some]
      rw [this]
    rw [hstep, ih (fun j => 2 * g j + (if pins p j then 1 else 0))]
    apply List.map_congr_left
    intro j _
    rw [List.foldl_cons]

theorem hx711_acc_lt (bits : List Bool) :
    ∀ k acc : Nat, acc < 2 ^ k →
      bits.foldl (fun acc b => 2 * acc + (if b then 1 else 0)) acc <
        2 ^ (k + bits.length) := by
  induction bits with
  | nil => intro k acc h; simpa using h
  | cons b bits ih =>
    intro k acc h
    rw [List.foldl_cons]
    have hstep : 2 * acc + (if b then 1 else 0) < 2 ^ (k + 1) := by
      have : (if b then 1 else 0) ≤ 1 := by split <;> omega
      have hpow : 2 ^ (k + 1) = 2 * 2 ^ k := by ring
      omega
    have := ih (k + 1) _ hstep
    have hidx : k + 1 + bits.length = k + (bits.length + 1) := by omega
    rw [hidx] at this
    simpa using this

/-- C4: for every channel count and every scripted assignment of
data-line levels (24 bits per channel, shifted in MSB first, one bit per
clock pulse), each channel's produced result equals the 24-bit
two's-complement value formed by those bits, sign-extended and shifted
left by 8 (so the sign bit occupies bit 31). -/
theorem read_hx711_values (count : Nat) (pins : Nat → Nat → Bool)
    (j : Nat) (hj : j < count) :
    (read_hx711_gain128 count pins).getD j 0 =
      (let raw := hx711_bits_value ((List.range 24).map (fun i => pins i j))
       (if raw < 2 ^ 23 then (raw : Int) else (raw : Int) - 2 ^ 24) * 2 ^ 8) := by
  have hrepl : (List.replicate count 0 : List Nat) =
      (List.range count).map (fun _ => 0) := by
    apply List.ext_getElem
    · simp
    · intro k h1 h2
      simp
  unfold read_hx711_gain128
  rw [hrepl, hx711_fold_channels pins count (List.range 24) (fun _ => 0)]
  have hbits : ∀ j : Nat,
      (List.range 24).foldl (fun acc i => 2 * acc + (if pins i j then 1 else 0)) 0 =
      hx711_bits_value ((List.range 24).map (fun i => pins i j)) := by
    intro j
    unfold hx711_bits_value
    rw [List.foldl_map]
  have hget : (((List.range count).map
      (fun j => (List.range 24).foldl
        (fun acc i => 2 * acc + (if pins i j then 1 else 0)) 0)).map
          (fun r => toInt32 (r <<< 8))).getD j 0 =
      toInt32 ((hx711_bits_value ((List.range 24).map (fun i => pins i j))) <<< 8) := by
    rw [List.map_map]
    simp only [List.getD_eq_getElem?_getD, List.getElem?_map,
      List.getElem?_range hj, Option.map_some', Option.getD_some,
      Function.comp_apply]
    rw [hbits j]
  rw [hget]
  set v := hx711_bits_value ((List.range 24).map (fun i => pins i j)) with hv
  have hvlt : v < 2 ^ 24 := by
    have := hx711_acc_lt ((List.range 24).map (fun i => pins i j)) 0 0 (by norm_num)
    simpa [hx711_bits_value, hv] using this
  have hshift : v <<< 8 = v * 2 ^ 8 := Nat.shiftLeft_eq v 8
  have hlt32 : v * 2 ^ 8 < 2 ^ 32 := by
    have h1 := hvlt
    norm_num at h1 ⊢
    omega
  show toInt32 (v <<< 8) =
    (if v < 2 ^ 23 then (v : Int) else (v : Int) - 2 ^ 24) * 2 ^ 8
  unfold toInt32
  rw [hshift, Nat.mod_eq_of_lt hlt32]
  rcases Nat.lt_or_ge v (2 ^ 23) with hsmall | hbig
  · rw [if_pos (by have := hsmall; norm_num at this ⊢; omega), if_pos hsmall]
    push_cast
    ring
  · rw [if_neg (by have := hbig; norm_num at this ⊢; omega), if_neg (by omega)]
    push_cast
    ring

/-- C4 witness: the 2-channel configuration with channel 0 reading all
zeros and channel 1 reading all ones yields 0 and −256 (the 24-bit
two's-complement value −1, shifted left by 8). -/
theorem read_hx711_values_witness :
    (read_hx711_gain128 2 (fun _ j => j == 1)).getD 0 0 = 0 ∧
    (read_hx711_gain128 2 (fun _ j => j == 1)).getD 1 0 = -256 := by
  have h0 := read_hx711_values 2 (fun _ j => j == 1) 0 (by decide)
  have h1 := read_hx711_values 2 (fun _ j => j == 1) 1 (by decide)
  exact ⟨h0.trans (by decide), h1.trans (by decide)⟩

/-! ### Serial transmit path (`firmware_force_sensor/src/platform.c`)

Model of `platform_serial_write` (lines 221–241) and `is_tx_idle`
(lines 84–87).  The caller's `data` pointer is modelled as an unbounded
memory `mem : Nat → Nat`; the caller's buffer occupies indices
`[0, size)`, so any access at index ≥ `size` reads past its end.  The
function returns the byte written synchronously to the UDR0 data
register (when the transmitter was idle) and the list of bytes the drain
loop hands to `fifo_push`, in order: `while (remaining-- > 0)` executes
its body once per value of `remaining` at loop entry.  `remaining` is a
`size_t`, which is 16 bits wide on the ATmega328 target, so the
decrement of 0 wraps to `SIZE_MAX`.  The busy-wait on a full TX fifo
only affects timing and is not modelled. -/

def SIZE_MAX : Nat := 0xFFFF

/-- The C post-decrement `remaining--` applied to a `size_t`. -/
def size_t_pred (x : Nat) : Nat := if x = 0 then SIZE_MAX else x - 1

/-- Translation of `is_tx_idle`: TX fifo empty and the hardware
data-register-empty flag (UCSR0A bit 5) set. -/
def is_tx_idle (g_fifo_tx : fifo) (udre : Bool) : Bool :=
  (fifo_len g_fifo_tx == 0) && udre

/-- Translation of `platform_serial_write`: if the transmitter is idle
the first byte is written straight to UDR0 and `remaining` is
decremented (wrapping at 0); the loop then pushes the bytes at the
following `remaining` indices into the TX fifo. -/
def platform_serial_write (size : Nat) (mem : Nat → Nat)
    (g_fifo_tx : fifo) (udre : Bool) : Option Nat × List Nat :=
  if is_tx_idle g_fifo_tx udre then
    (some (mem 0), (List.range (size_t_pred size)).map (fun i => mem (1 + i)))
  else
    (none, (List.range size).map mem)

/-- C10: calling `platform_serial_write` with `size = 0` while the
transmitter is idle (TX fifo empty, data-register-empty flag set) writes
the byte at index 0 — one past the end of the caller's zero-length
buffer — to the hardware data register, wraps the `size_t` remaining
counter from 0 to `SIZE_MAX`, and the drain loop then attempts to push
the `SIZE_MAX` further out-of-bounds bytes at indices 1, 2, … into the
TX fifo. -/
theorem serial_write_zero_size_idle (mem : Nat → Nat) :
    platform_serial_write 0 mem g_fifo_tx true =
      (some (mem 0), (List.range SIZE_MAX).map (fun i => mem (1 + i))) ∧
    size_t_pred 0 = SIZE_MAX ∧
    ((List.range SIZE_MAX).map (fun i => mem (1 + i))).length = SIZE_MAX ∧
    (∀ i ∈ List.range SIZE_MAX, (0 : Nat) < 1 + i) := by
  refine ⟨?_, rfl, by simp, fun i _ => by omega⟩
  unfold platform_serial_write
  rw [if_pos (by decide)]
  rfl

/-! ### Round-trip: `packet_send` followed by byte-wise `packet_parse` -/

theorem parse_stream_append (xs ys : List Nat) :
    ∀ s : packet_parser_state,
      parse_stream s (xs ++ ys) =
        ((parse_stream s xs).1 ++ (parse_stream (parse_stream s xs).2 ys).1,
         (parse_stream (parse_stream s xs).2 ys).2) := by
  induction xs with
  | nil => intro s; rfl
  | cons b xs ih =>
    intro s
    show ((packet_parse s b).1 :: (parse_stream (packet_parse s b).2 (xs ++ ys)).1,
          (parse_stream (packet_parse s b).2 (xs ++ ys)).2) = _
    rw [ih (packet_parse s b).2]
    simp only [parse_stream, List.cons_append]

/-- Writing a byte sequence into a buffer at consecutive indices,
mirroring the parser's payload stores. -/
def writeList (buf : List Nat) (i : Nat) : List Nat → List Nat
  | [] => buf
  | d :: ds => writeList (buf.set i d) (i + 1) ds

theorem writeList_eq (ds : List Nat) :
    ∀ (buf : List Nat) (i : Nat), i + ds.length ≤ buf.length →
      writeList buf i ds = buf.take i ++ ds ++ buf.drop (i + ds.length) := by
  induction ds with
  | nil =>
    intro buf i h
    simp only [writeList, List.length_nil, Nat.add_zero, List.append_nil]
    rw [List.take_append_drop]
  | cons d ds ih =>
    intro buf i h
    simp only [List.length_cons] at h
    have hi : i < buf.length := by omega
    rw [writeList, ih (buf.set i d) (i + 1) (by simp; omega)]
    have htake : (buf.set i d).take (i + 1) = buf.take i ++ [d] := by
      rw [List.set_eq_take_cons_drop d hi,
        show (buf.take i ++ d :: buf.drop (i + 1)) =
          ((buf.take i ++ [d]) ++ buf.drop (i + 1)) by simp]
      apply List.take_left'
      simp
      omega
    have hdrop : (buf.set i d).drop (i + 1 + ds.length) = buf.drop (i + 1 + ds.length) := by
      rw [List.drop_set, if_pos (by omega)]
    rw [htake, hdrop]
    simp only [List.length_cons, List.append_assoc, List.cons_append,
      List.singleton_append, List.nil_append]
    have harith : i + (ds.length + 1) = i + 1 + ds.length := by omega
    rw [harith]

theorem packet_parse_stage8_done (s : packet_parser_state) (b : Nat) (h8 : s.stage = 8)
    (hdone : ¬ s.payload_offset < s.payload_size) :
    packet_parse s b =
      (false, { s with crc := crc16_ccitt_false_add_byte s.crc b, stage := 9 }) := by
  unfold packet_parse
  rw [if_neg (by omega), if_neg (by omega), if_neg (by omega),
      if_pos h8, if_neg hdone, h8]

theorem packet_parse_stage9 (s : packet_parser_state) (b : Nat) (h9 : s.stage = 9) :
    packet_parse s b =
      (decide (CRC16_CCITT_FALSE_RESIDUE = crc16_ccitt_false_add_byte s.crc b),
       { s with crc := crc16_ccitt_false_add_byte s.crc b, stage := 0 }) := by
  unfold packet_parse
  rw [if_neg (by omega), if_neg (by omega), if_neg (by omega), if_neg (by omega)]

theorem parse_header (n : Nat) (hn : n ≤ 255) :
    parse_stream packet_parser_state.init [0xB4, 0x4C, 0xEC, 0xF2, n, 0, 0, 0] =
      (List.replicate 8 false,
       ⟨8, n, 0, List.replicate 255 0, CRC16_CCITT_FALSE_INITIAL_VALUE⟩) := by
  have h1 : packet_parse packet_parser_state.init 0xB4 =
      (false, ⟨1, 0, 0, List.replicate 255 0, 0⟩) := by decide
  have h2 : packet_parse ⟨1, 0, 0, List.replicate 255 0, 0⟩ 0x4C =
      (false, ⟨2, 0, 0, List.replicate 255 0, 0⟩) := by decide
  have h3 : packet_parse ⟨2, 0, 0, List.replicate 255 0, 0⟩ 0xEC =
      (false, ⟨3, 0, 0, List.replicate 255 0, 0⟩) := by decide
  have h4 : packet_parse ⟨3, 0, 0, List.replicate 255 0, 0⟩ 0xF2 =
      (false, ⟨4, 0, 0, List.replicate 255 0, 0⟩) := by decide
  have h5 : packet_parse ⟨4, 0, 0, List.replicate 255 0, 0⟩ n =
      (false, ⟨5, n, 0, List.replicate 255 0, CRC16_CCITT_FALSE_INITIAL_VALUE⟩) := by
    unfold packet_parse
    dsimp only
    rw [if_neg (by omega), if_pos rfl, if_neg (by show ¬ n > 255; omega)]
  have h6 : packet_parse ⟨5, n, 0, List.replicate 255 0, CRC16_CCITT_FALSE_INITIAL_VALUE⟩ 0 =
      (false, ⟨6, n, 0, List.replicate 255 0, CRC16_CCITT_FALSE_INITIAL_VALUE⟩) := by
    unfold packet_parse
    dsimp only
    rw [if_neg (by omega), if_neg (by omega), if_pos (Or.inl rfl)]
  have h7 : packet_parse ⟨6, n, 0, List.replicate 255 0, CRC16_CCITT_FALSE_INITIAL_VALUE⟩ 0 =
      (false, ⟨7, n, 0, List.replicate 255 0, CRC16_CCITT_FALSE_INITIAL_VALUE⟩) := by
    unfold packet_parse
    dsimp only
    rw [if_neg (by omega), if_neg (by omega), if_pos (Or.inr (Or.inl rfl))]
  have h8 : packet_parse ⟨7, n, 0, List.replicate 255 0, CRC16_CCITT_FALSE_INITIAL_VALUE⟩ 0 =
      (false, ⟨8, n, 0, List.replicate 255 0, CRC16_CCITT_FALSE_INITIAL_VALUE⟩) := by
    unfold packet_parse
    dsimp only
    rw [if_neg (by omega), if_neg (by omega), if_pos (Or.inr (Or.inr rfl))]
  simp only [parse_stream, h1, h2, h3, h4, h5, h6, h7, h8]
  rfl

theorem parse_payload_phase (ds : List Nat) :
    ∀ s : packet_parser_state, s.stage = 8 →
      s.payload_offset + ds.length ≤ s.payload_size →
      parse_stream s ds =
        (List.replicate ds.length false,
         { s with payload := writeList s.payload s.payload_offset ds,
                  payload_offset := s.payload_offset + ds.length,
                  crc := crc16_ccitt_false_add s.crc ds }) := by
  induction ds with
  | nil =>
    intro s h8 hle
    show ([], s) = _
    simp [writeList, crc16_ccitt_false_add]
  | cons d ds ih =>
    intro s h8 hle
    simp only [List.length_cons] at hle
    have hofflt : s.payload_offset < s.payload_size := by omega
    have hstep : packet_parse s d =
        (false, { s with payload := s.payload.set s.payload_offset d,
                         crc := crc16_ccitt_false_add_byte s.crc d,
                         payload_offset := s.payload_offset + 1 }) := by
      unfold packet_parse
      rw [if_neg (by omega), if_neg (by omega), if_neg (by omega),
          if_pos h8, if_pos hofflt]
    show ((packet_parse s d).1 :: (parse_stream (packet_parse s d).2 ds).1,
          (parse_stream (packet_parse s d).2 ds).2) = _
    rw [hstep]
    have ihs := ih { s with payload := s.payload.set s.payload_offset d,
                            crc := crc16_ccitt_false_add_byte s.crc d,
                            payload_offset := s.payload_offset + 1 }
      h8 (by show s.payload_offset + 1 + ds.length ≤ s.payload_size; omega)
    rw [ihs]
    dsimp only [writeList, crc16_ccitt_false_add, List.foldl_cons, List.length_cons]
    rw [List.replicate_succ]
    have hoff : s.payload_offset + 1 + ds.length = s.payload_offset + (ds.length + 1) := by
      omega
    rw [hoff]

theorem parse_crc_tail (s : packet_parser_state) (h8 : s.stage = 8)
    (hdone : ¬ s.payload_offset < s.payload_size) :
    parse_stream s [s.crc >>> 8, s.crc &&& 0xFF] =
      ([false, true], { s with crc := 0, stage := 0 }) := by
  have e1 := packet_parse_stage8_done s (s.crc >>> 8) h8 hdone
  have e2 : packet_parse
      { s with crc := crc16_ccitt_false_add_byte s.crc (s.crc >>> 8), stage := 9 }
      (s.crc &&& 0xFF) = (true, { s with crc := 0, stage := 0 }) := by
    have h := packet_parse_stage9
      { s with crc := crc16_ccitt_false_add_byte s.crc (s.crc >>> 8), stage := 9 }
      (s.crc &&& 0xFF) rfl
    rw [h]
    dsimp only
    rw [crc16_residue_all s.crc]
    simp [CRC16_CCITT_FALSE_RESIDUE]
  simp only [parse_stream, e1, e2]

/-- C1: for every payload of length 0–255, emitting a frame with
`packet_send` and feeding the emitted bytes one at a time to
`packet_parse` from the initial parser state returns true only on the
very last byte of the frame, after which the parser's `payload` buffer
holds exactly the original payload bytes (its first `payload_size`
entries) and `payload_size` equals the original length. -/
theorem packet_roundtrip (data : List Nat) (hlen : data.length ≤ 255)
    (_hbytes : ∀ b ∈ data, b < 256) :
    (parse_stream packet_parser_state.init (packet_send data.length data)).1 =
      List.replicate ((packet_send data.length data).length - 1) false ++ [true] ∧
    (parse_stream packet_parser_state.init (packet_send data.length data)).2.payload_size =
      data.length ∧
    ((parse_stream packet_parser_state.init (packet_send data.length data)).2.payload).take
      data.length = data := by
  have hclt : crc16_ccitt_false_add CRC16_CCITT_FALSE_INITIAL_VALUE data < 0x10000 :=
    crc16_ccitt_false_add_lt data _ (by norm_num [CRC16_CCITT_FALSE_INITIAL_VALUE])
  set c := crc16_ccitt_false_add CRC16_CCITT_FALSE_INITIAL_VALUE data with hc
  have hhilt : c >>> 8 < 256 := by
    rw [Nat.shiftRight_eq_div_pow]
    have hpos : 0 < 2 ^ 8 := by norm_num
    rw [Nat.div_lt_iff_lt_mul hpos]
    norm_num at hclt ⊢
    omega
  have hhi : (c >>> 8) &&& 0xFF = c >>> 8 := by
    rw [show (0xFF : Nat) = 2 ^ 8 - 1 by norm_num]
    exact Nat.and_pow_two_sub_one_of_lt_two_pow (by norm_num at hhilt ⊢; omega)
  have hsend : packet_send data.length data =
      [0xB4, 0x4C, 0xEC, 0xF2, data.length, 0, 0, 0] ++ data ++ [c >>> 8, c &&& 0xFF] := by
    unfold packet_send
    dsimp only
    rw [show PACKET_MAGIC &&& 0xFF = 0xB4 from by decide,
        show (PACKET_MAGIC >>> 8) &&& 0xFF = 0x4C from by decide,
        show (PACKET_MAGIC >>> 16) &&& 0xFF = 0xEC from by decide,
        show (PACKET_MAGIC >>> 24) &&& 0xFF = 0xF2 from by decide,
        ← hc, hhi]
  rw [hsend, List.append_assoc, parse_stream_append, parse_header data.length hlen]
  dsimp only
  rw [parse_stream_append]
  have hpp := parse_payload_phase data
    ⟨8, data.length, 0, List.replicate 255 0, CRC16_CCITT_FALSE_INITIAL_VALUE⟩
    rfl (by dsimp only; omega)
  dsimp only at hpp
  rw [← hc] at hpp
  rw [hpp]
  dsimp only
  have hcrct := parse_crc_tail
    ⟨8, data.length, 0 + data.length, writeList (List.replicate 255 0) 0 data, c⟩
    rfl (by dsimp only; omega)
  dsimp only at hcrct
  rw [hcrct]
  dsimp only
  refine ⟨?_, rfl, ?_⟩
  · have hcount : ([0xB4, 0x4C, 0xEC, 0xF2, data.length, 0, 0, 0] ++
        (data ++ [c >>> 8, c &&& 0xFF])).length - 1 = data.length + 9 := by
      simp [List.length_append]
    rw [hcount]
    rw [show ([false, true] : List Bool) = List.replicate 1 false ++ [true] from rfl]
    simp only [← List.append_assoc, ← List.replicate_add]
    have : 8 + (data.length + 1) = data.length + 9 := by omega
    rw [this]
  · rw [writeList_eq data (List.replicate 255 0) 0 (by simp; omega)]
    simp only [List.take_zero, List.nil_append, Nat.zero_add]
    exact List.take_left' rfl

/-- C1 witness: the 9-byte payload of ASCII digits 1–9 round-trips: only
the 19th emitted byte completes the parse, and the parser then holds the
payload and its length. -/
theorem packet_roundtrip_witness :
    (parse_stream packet_parser_state.init
        (packet_send 9 [0x31, 0x32, 0x33, 0x34, 0x35, 0x36, 0x37, 0x38, 0x39])).1 =
      List.replicate 18 false ++ [true] ∧
    (parse_stream packet_parser_state.init
        (packet_send 9 [0x31, 0x32, 0x33, 0x34, 0x35, 0x36, 0x37, 0x38, 0x39])).2.payload_size = 9 ∧
    ((parse_stream packet_parser_state.init
        (packet_send 9 [0x31, 0x32, 0x33, 0x34, 0x35, 0x36, 0x37, 0x38, 0x39])).2.payload).take 9 =
      [0x31, 0x32, 0x33, 0x34, 0x35, 0x36, 0x37, 0x38, 0x39] := by
  have h := packet_roundtrip [0x31, 0x32, 0x33, 0x34, 0x35, 0x36, 0x37, 0x38, 0x39]
    (by decide) (by decide)
  exact ⟨h.1.trans (by decide), h.2.1, h.2.2⟩

end Rig
